import Mathlib

/-!
Shallow embedding of the k-core hierarchy decomposition (`kcore_tree.py`).

The repository's pipeline is
  `kcore_tree g = (blocks, hierarchy)` with
  `blocks = component_lists_to_blocks (build_vertex_sets g)` and
  `hierarchy = blocks_to_hierarchy blocks`.

Graphs are finite undirected graphs on vertices `0 .. n-1` given by an
edge list.  The external igraph services consumed by the source
(per-vertex coreness, weak-component enumeration of an induced
subgraph) are modelled from the spec; everything else is translated
from the python source.
-/

/-- A graph: number of vertices and an undirected edge list.  Mirrors the
igraph graphs consumed by the source. -/
structure Graph where
  n : Nat
  edges : List (Nat × Nat)
  deriving DecidableEq

/-- The source's `Block = namedtuple('Block', ['idx', 'parent', 'vertices', 'klevel', 'kconn'])`. -/
structure Block where
  idx : Nat
  parent : Option Nat
  vertices : List Nat
  klevel : Nat
  kconn : Nat
  deriving DecidableEq

/-- The hierarchy graph built by `blocks_to_hierarchy`: one vertex per block,
directed edges parent → child, recorded in insertion order. -/
structure Hier where
  nverts : Nat
  hedges : List (Nat × Nat)
  deriving DecidableEq

instance : Inhabited Block := ⟨⟨0, none, [], 0, 0⟩⟩

/-- Undirected adjacency from the edge list. -/
def Graph.adjB (g : Graph) (u v : Nat) : Bool :=
  g.edges.any (fun e => (decide (e.1 = u) && decide (e.2 = v)) || (decide (e.1 = v) && decide (e.2 = u)))

/-- The source's `__filter_vertices(k, coreness)`:
`list(filter(lambda i: coreness[i] >= k, range(len(coreness))))`. -/
def filter_vertices (k : Nat) (coreness : List Nat) : List Nat :=
  (List.range coreness.length).filter (fun i => decide (k ≤ coreness.getD i 0))

/-- One breadth step of reachability inside the subgraph induced by `vs`. -/
def reachStep (g : Graph) (vs s : List Nat) : List Nat :=
  vs.filter (fun w => decide (w ∈ s) || s.any (fun x => g.adjB x w))

/-- Iterated breadth steps from `u` inside the subgraph induced by `vs`. -/
def reachSet (g : Graph) (vs : List Nat) (u : Nat) : Nat → List Nat
  | 0 => vs.filter (fun w => decide (w = u))
  | m + 1 => reachStep g vs (reachSet g vs u m)

/-- Decidable reachability of `v` from `u` inside the subgraph induced by `vs`. -/
def reachableB (g : Graph) (vs : List Nat) (u v : Nat) : Bool :=
  decide (v ∈ reachSet g vs u vs.length)

/-- The weak component of `v` inside the subgraph induced by `vs`, as a
sublist of `vs` (so in ascending original-id order whenever `vs` is). -/
def compClass (g : Graph) (vs : List Nat) (v : Nat) : List Nat :=
  vs.filter (fun w => reachableB g vs v w)

/-- Whether `v` is the first member of `vs` lying in its own weak component. -/
def compRep (g : Graph) (vs : List Nat) (v : Nat) : Bool :=
  decide ((compClass g vs v).head? = some v)

/-- Modelled from the spec: the source's `induced_components(g, vs)` delegates
weak-component enumeration to the external graph engine
(`g.induced_subgraph(vs)` followed by `gs.components(igraph.WEAK)`) and maps
each component back to original vertex ids through the `_index` attribute.
The components are listed by smallest original vertex id, each component
as the sublist of `vs` it consists of. -/
def induced_components (g : Graph) (vs : List Nat) : List (List Nat) :=
  (vs.filter (compRep g vs)).map (compClass g vs)

/-- Degree of `v` among the still-alive vertices. -/
def degIn (g : Graph) (alive : List Nat) (v : Nat) : Nat :=
  (alive.filter (fun w => g.adjB v w)).length

/-- First vertex of minimum remaining degree, with its degree. -/
def minDegVertex (g : Graph) (alive : List Nat) : Option (Nat × Nat) :=
  (alive.map (fun v => (v, degIn g alive v))).foldl
    (fun acc p =>
      match acc with
      | none => some p
      | some q => if p.2 < q.2 then some p else some q) none

/-- Degeneracy peeling: repeatedly remove a minimum-degree vertex, recording
for it the running maximum of the minimum degrees seen so far. -/
def peelLoop (g : Graph) : Nat → List Nat → Nat → List (Nat × Nat)
  | 0, _, _ => []
  | fuel + 1, alive, cur =>
    match minDegVertex g alive with
    | none => []
    | some vd =>
      (vd.1, Nat.max cur vd.2) :: peelLoop g fuel (alive.erase vd.1) (Nat.max cur vd.2)

/-- Modelled from the spec: the per-vertex coreness vector `g.coreness()`
supplied by the external graph engine — "the largest k such that the vertex
belongs to a maximal subgraph where every vertex has degree ≥ k within that
subgraph", computed by standard degeneracy peeling. -/
def corenessIG (g : Graph) : List Nat :=
  (List.range g.n).map (fun v =>
    (((peelLoop g g.n (List.range g.n) 0).find? (fun p => decide (p.1 = v))).map Prod.snd).getD 0)

/-- The source's `sorted(set(coreness))`: ascending distinct values present. -/
def dedupSorted (c : List Nat) : List Nat :=
  (List.range (c.foldr Nat.max 0 + 1)).filter (fun k => decide (k ∈ c))

/-- The per-level component list of `build_vertex_sets`: genuine weak
components for `k > 0`, but the unsplit vertex set `[vset]` for `k = 0`. -/
def compsEntry (g : Graph) (c : List Nat) (k : Nat) : List (List Nat) :=
  if 0 < k then induced_components g (filter_vertices k c) else [filter_vertices k c]

/-- The source's `build_vertex_sets(g)` with the coreness vector made an
explicit argument: an ordered association list from each k-core level to the
list of components at that level, levels ascending. -/
def build_vertex_sets_c (g : Graph) (c : List Nat) : List (Nat × List (List Nat)) :=
  (dedupSorted c).map (fun k => (k, compsEntry g c k))

/-- The source's `build_vertex_sets(g)`, with `coreness = g.coreness()`. -/
def build_vertex_sets (g : Graph) : List (Nat × List (List Nat)) :=
  build_vertex_sets_c g (corenessIG g)

/-- One parent-resolution step: keep an already-found parent, otherwise take
the last entry of the ancestry history at hand (if any). -/
def parUpd (par : Option Nat) (h : List Nat) : Option Nat :=
  match par with
  | some p => some p
  | none => h.getLast?

/-- The per-component vertex scan of `component_lists_to_blocks`: for each
member `v` in order, if no parent has been found yet and `ancestries[v]` is
non-empty take its last entry as the parent, then append the current block
index to `ancestries[v]`. -/
def scanVs : Option Nat → (Nat → List Nat) → Nat → List Nat → Option Nat × (Nat → List Nat)
  | par, anc, _, [] => (par, anc)
  | par, anc, idx, v :: rest =>
    scanVs (parUpd par (anc v)) (fun w => if w = v then anc v ++ [idx] else anc w) idx rest

/-- The mutable state of `component_lists_to_blocks`: the running block
index, the per-vertex ancestry histories, and the accumulated block list. -/
structure AState where
  index : Nat
  anc : Nat → List Nat
  blocks : List Block

/-- Process one component at level `k`: resolve its parent, extend the
ancestry histories, and append the new block. -/
def procComp (st : AState) (k : Nat) (vs : List Nat) : AState :=
  { index := st.index + 1,
    anc := (scanVs none st.anc st.index vs).2,
    blocks := st.blocks ++ [⟨st.index, (scanVs none st.anc st.index vs).1, vs, k, k⟩] }

/-- The source's `component_lists_to_blocks(components_dict)`. -/
def component_lists_to_blocks (cd : List (Nat × List (List Nat))) : List Block :=
  (cd.foldl (fun (st : AState) (kcs : Nat × List (List Nat)) =>
      kcs.2.foldl (fun s c => procComp s kcs.1 c) st)
    ⟨0, fun _ => [], []⟩).blocks

/-- The source's `blocks_to_hierarchy(blocks)`: one vertex per block and one
directed edge `parent → idx` per block whose parent is not `None`. -/
def blocks_to_hierarchy (blocks : List Block) : Hier :=
  { nverts := blocks.length,
    hedges := blocks.filterMap (fun b => b.parent.map (fun p => (p, b.idx))) }

/-- The source's `kcore_tree(g)`. -/
def kcore_tree (g : Graph) : List Block × Hier :=
  (component_lists_to_blocks (build_vertex_sets g),
   blocks_to_hierarchy (component_lists_to_blocks (build_vertex_sets g)))

/-! Specification-side descriptions of the assembly, used to state and prove
the invariants. -/

/-- Flatten a components dictionary into the sequence of (level, component)
pairs in processing order. -/
def flatten_cd (cd : List (Nat × List (List Nat))) : List (Nat × List Nat) :=
  cd.flatMap (fun kcs => kcs.2.map (fun c => (kcs.1, c)))

/-- Default (level, component) entry. -/
def entD : Nat × List Nat := (0, [])

/-- The ancestry history of vertex `v` just before block `i` is created:
the indices `j < i` whose component contains `v`, in increasing order. -/
def histOf (flat : List (Nat × List Nat)) (i v : Nat) : List Nat :=
  (List.range i).filter (fun j => decide (v ∈ (flat.getD j entD).2))

/-- The parent scan: the last ancestry entry of the first vertex whose
ancestry history is non-empty, if any. -/
def firstParent (anc : Nat → List Nat) : List Nat → Option Nat
  | [] => none
  | v :: rest =>
    match (anc v).getLast? with
    | some l => some l
    | none => firstParent anc rest

/-- The parent resolved for the `i`-th created block. -/
def parentOf (flat : List (Nat × List Nat)) (i : Nat) : Option Nat :=
  firstParent (fun v => histOf flat i v) (flat.getD i entD).2

/-- The `i`-th block created by the assembly, described directly. -/
def mkBlock (flat : List (Nat × List Nat)) (i : Nat) : Block :=
  ⟨i, parentOf flat i, (flat.getD i entD).2, (flat.getD i entD).1, (flat.getD i entD).1⟩

/-- The whole block list, described directly. -/
def blocksSpec (flat : List (Nat × List Nat)) : List Block :=
  (List.range flat.length).map (mkBlock flat)


/-! Phase A: the assembly fold computes exactly `blocksSpec`. -/

theorem parUpd_some (p : Nat) (h : List Nat) : parUpd (some p) h = some p := rfl

theorem parUpd_none (h : List Nat) : parUpd none h = h.getLast? := rfl

theorem firstParent_congr (a1 a2 : Nat → List Nat) (l : List Nat)
    (h : ∀ w ∈ l, a1 w = a2 w) : firstParent a1 l = firstParent a2 l := by
  induction l with
  | nil => rfl
  | cons v rest ih =>
    rw [firstParent, firstParent, h v (List.mem_cons_self v rest),
      ih (fun w hw => h w (List.mem_cons_of_mem v hw))]

theorem scanVs_fst_some (anc : Nat → List Nat) (idx p : Nat) (vs : List Nat) :
    (scanVs (some p) anc idx vs).1 = some p := by
  induction vs generalizing anc with
  | nil => rfl
  | cons v rest ih => simpa [scanVs, parUpd] using ih _

theorem scanVs_fst_none (anc : Nat → List Nat) (idx : Nat) (vs : List Nat)
    (hnd : vs.Nodup) :
    (scanVs none anc idx vs).1 = firstParent anc vs := by
  induction vs generalizing anc with
  | nil => rfl
  | cons v rest ih =>
    rw [List.nodup_cons] at hnd
    rw [scanVs, firstParent, parUpd_none]
    cases h : (anc v).getLast? with
    | some l =>
      show _ = some l
      exact scanVs_fst_some _ _ _ _
    | none =>
      show _ = firstParent anc rest
      rw [ih _ hnd.2]
      exact firstParent_congr _ _ _ (fun w hw => by
        have hne : w ≠ v := fun e => hnd.1 (e ▸ hw)
        simp [hne])

theorem scanVs_snd (par : Option Nat) (anc : Nat → List Nat) (idx : Nat) (vs : List Nat)
    (hnd : vs.Nodup) (w : Nat) :
    (scanVs par anc idx vs).2 w = if w ∈ vs then anc w ++ [idx] else anc w := by
  induction vs generalizing anc par with
  | nil => simp [scanVs]
  | cons v rest ih =>
    rw [List.nodup_cons] at hnd
    rw [scanVs, ih _ _ hnd.2]
    by_cases hw : w = v
    · subst hw
      have hnr : w ∉ rest := hnd.1
      simp [hnr]
    · by_cases hw2 : w ∈ rest <;> simp [hw, hw2]

/-- Fold of `procComp` over the flattened (level, component) sequence. -/
def flatFold (st : AState) (l : List (Nat × List Nat)) : AState :=
  l.foldl (fun s kc => procComp s kc.1 kc.2) st

theorem flatFold_append (st : AState) (a b : List (Nat × List Nat)) :
    flatFold st (a ++ b) = flatFold (flatFold st a) b := by
  simp [flatFold]

theorem clb_flat (cd : List (Nat × List (List Nat))) (st : AState) :
    cd.foldl (fun (st : AState) (kcs : Nat × List (List Nat)) =>
        kcs.2.foldl (fun s c => procComp s kcs.1 c) st) st
      = flatFold st (flatten_cd cd) := by
  induction cd generalizing st with
  | nil => rfl
  | cons kcs rest ih =>
    rw [List.foldl_cons, ih]
    have h1 : flatten_cd (kcs :: rest) = kcs.2.map (fun c => (kcs.1, c)) ++ flatten_cd rest := rfl
    rw [h1, flatFold_append]
    have h2 : flatFold st (kcs.2.map (fun c => (kcs.1, c)))
        = kcs.2.foldl (fun s c => procComp s kcs.1 c) st := by
      rw [flatFold, List.foldl_map]
    rw [h2]

theorem histOf_take (flat : List (Nat × List Nat)) (x : Nat × List Nat) (i v : Nat)
    (h : i ≤ flat.length) :
    histOf (flat ++ [x]) i v = histOf flat i v := by
  rw [histOf, histOf]
  apply List.filter_congr
  intro j hj
  rw [List.mem_range] at hj
  rw [List.getD_append _ _ _ _ (lt_of_lt_of_le hj h)]

theorem getD_concat_self (flat : List (Nat × List Nat)) (x : Nat × List Nat) :
    (flat ++ [x]).getD flat.length entD = x := by
  rw [List.getD_append_right _ _ _ _ (le_refl _), Nat.sub_self]
  rfl

theorem histOf_snoc (flat : List (Nat × List Nat)) (x : Nat × List Nat) (v : Nat) :
    histOf (flat ++ [x]) (flat.length + 1) v =
      if v ∈ x.2 then histOf flat flat.length v ++ [flat.length]
      else histOf flat flat.length v := by
  have h0 : (List.range flat.length).filter
      (fun j => decide (v ∈ ((flat ++ [x]).getD j entD).2)) = histOf flat flat.length v :=
    histOf_take flat x flat.length v (le_refl _)
  rw [histOf, List.range_succ, List.filter_append, h0]
  by_cases hv : v ∈ x.2 <;> simp [getD_concat_self, hv]

theorem mkBlock_take (flat : List (Nat × List Nat)) (x : Nat × List Nat) (i : Nat)
    (h : i < flat.length) :
    mkBlock (flat ++ [x]) i = mkBlock flat i := by
  have hg : (flat ++ [x]).getD i entD = flat.getD i entD :=
    List.getD_append _ _ _ _ h
  rw [mkBlock, mkBlock, hg, parentOf, parentOf, hg]
  rw [firstParent_congr _ (fun v => histOf flat i v) _
    (fun w _ => histOf_take _ _ _ _ (le_of_lt h))]

theorem blocksSpec_snoc (flat : List (Nat × List Nat)) (x : Nat × List Nat) :
    blocksSpec (flat ++ [x]) = blocksSpec flat ++ [mkBlock (flat ++ [x]) flat.length] := by
  rw [blocksSpec, blocksSpec, List.length_append, List.length_singleton, List.range_succ,
    List.map_append, List.map_singleton]
  congr 1
  apply List.map_congr_left
  intro i hi
  rw [List.mem_range] at hi
  exact mkBlock_take _ _ _ hi

theorem flatFold_spec (flat : List (Nat × List Nat))
    (hnd : ∀ e ∈ flat, e.2.Nodup) :
    flatFold ⟨0, fun _ => [], []⟩ flat =
      ⟨flat.length, fun v => histOf flat flat.length v, blocksSpec flat⟩ := by
  induction flat using List.reverseRecOn with
  | nil => rfl
  | append_singleton flat x ih =>
    have hnd' : ∀ e ∈ flat, e.2.Nodup := fun e he => hnd e (List.mem_append_left _ he)
    have hx : x.2.Nodup := hnd x (List.mem_append_right _ (List.mem_singleton_self x))
    rw [flatFold_append, ih hnd']
    show AState.mk (flat.length + 1)
        ((scanVs none (fun v => histOf flat flat.length v) flat.length x.2).2)
        (blocksSpec flat ++
          [⟨flat.length, (scanVs none (fun v => histOf flat flat.length v) flat.length x.2).1,
            x.2, x.1, x.1⟩]) = _
    have hanc : (scanVs none (fun v => histOf flat flat.length v) flat.length x.2).2
        = fun v => histOf (flat ++ [x]) (flat ++ [x]).length v := by
      funext w
      rw [scanVs_snd _ _ _ _ hx, List.length_append, List.length_singleton, histOf_snoc]
    have hpar : (scanVs none (fun v => histOf flat flat.length v) flat.length x.2).1
        = parentOf (flat ++ [x]) flat.length := by
      rw [scanVs_fst_none _ _ _ hx, parentOf, getD_concat_self]
      exact firstParent_congr _ _ _
        (fun w _ => (histOf_take _ _ _ w (le_refl _)).symm)
    have hmk : mkBlock (flat ++ [x]) flat.length
        = ⟨flat.length, parentOf (flat ++ [x]) flat.length, x.2, x.1, x.1⟩ := by
      rw [mkBlock, getD_concat_self]
    rw [hanc, hpar, blocksSpec_snoc, hmk]
    simp [List.length_append]

theorem clb_eq (cd : List (Nat × List (List Nat)))
    (hnd : ∀ e ∈ flatten_cd cd, e.2.Nodup) :
    component_lists_to_blocks cd = blocksSpec (flatten_cd cd) := by
  rw [component_lists_to_blocks, clb_flat, flatFold_spec _ hnd]

/-! Phase B: correctness of the weak-component model. -/

/-- One undirected step inside the subgraph induced by `vs`. -/
def stepRel (g : Graph) (vs : List Nat) (a b : Nat) : Prop :=
  a ∈ vs ∧ b ∈ vs ∧ g.adjB a b = true

/-- Reachability inside the subgraph induced by `vs`. -/
def ReachP (g : Graph) (vs : List Nat) : Nat → Nat → Prop :=
  Relation.ReflTransGen (stepRel g vs)

theorem bool_eq_of_iff {a b : Bool} (h : a = true ↔ b = true) : a = b := by
  cases a <;> cases b <;> simp_all

theorem adjB_symm (g : Graph) (u v : Nat) : g.adjB u v = g.adjB v u :=
  congrArg (List.any g.edges) (funext fun _ => Bool.or_comm _ _)

theorem stepRel_symm (g : Graph) (vs : List Nat) : Symmetric (stepRel g vs) := by
  intro a b h
  exact ⟨h.2.1, h.1, by rw [adjB_symm]; exact h.2.2⟩

theorem ReachP_symm (g : Graph) (vs : List Nat) {u v : Nat} (h : ReachP g vs u v) :
    ReachP g vs v u :=
  Relation.ReflTransGen.symmetric (stepRel_symm g vs) h

theorem ReachP_mono (g : Graph) {vs vs' : List Nat} (hsub : ∀ x ∈ vs', x ∈ vs)
    {u v : Nat} (h : ReachP g vs' u v) : ReachP g vs u v :=
  Relation.ReflTransGen.mono (fun _ _ hab => ⟨hsub _ hab.1, hsub _ hab.2.1, hab.2.2⟩) h

theorem reachSet_subset (g : Graph) (vs : List Nat) (u m : Nat) {w : Nat}
    (h : w ∈ reachSet g vs u m) : w ∈ vs := by
  cases m with
  | zero => rw [reachSet] at h; exact (List.mem_filter.1 h).1
  | succ m => rw [reachSet, reachStep] at h; exact (List.mem_filter.1 h).1

theorem mem_reachSet_zero (g : Graph) (vs : List Nat) (u : Nat) (hu : u ∈ vs) :
    u ∈ reachSet g vs u 0 := by
  rw [reachSet]
  exact List.mem_filter.2 ⟨hu, by simp⟩

theorem reachSet_mono_succ (g : Graph) (vs : List Nat) (u m : Nat) {w : Nat}
    (h : w ∈ reachSet g vs u m) : w ∈ reachSet g vs u (m + 1) := by
  rw [reachSet, reachStep]
  exact List.mem_filter.2 ⟨reachSet_subset g vs u m h, by simp [h]⟩

theorem reachSet_mono_le (g : Graph) (vs : List Nat) (u : Nat) {m1 : Nat} {w : Nat}
    (hw : w ∈ reachSet g vs u m1) {m2 : Nat} (h : m1 ≤ m2) : w ∈ reachSet g vs u m2 := by
  induction h with
  | refl => exact hw
  | step _ ih => exact reachSet_mono_succ _ _ _ _ ih

theorem reachSet_sound (g : Graph) (vs : List Nat) (u m : Nat) {w : Nat}
    (h : w ∈ reachSet g vs u m) : ReachP g vs u w := by
  induction m generalizing w with
  | zero =>
    rw [reachSet] at h
    have h2 := List.mem_filter.1 h
    have hw : w = u := by simpa using h2.2
    subst hw
    exact Relation.ReflTransGen.refl
  | succ m ih =>
    rw [reachSet, reachStep] at h
    have hm := List.mem_filter.1 h
    have hw : w ∈ vs := hm.1
    have h2 := hm.2
    simp only [Bool.or_eq_true, decide_eq_true_eq, List.any_eq_true] at h2
    rcases h2 with h2 | ⟨x, hx, hadj⟩
    · exact ih h2
    · exact Relation.ReflTransGen.tail (ih hx) ⟨reachSet_subset g vs u m hx, hw, hadj⟩

theorem reachSet_filter_form (g : Graph) (vs : List Nat) (u m : Nat) :
    ∃ p, reachSet g vs u m = vs.filter p := by
  cases m with
  | zero => exact ⟨_, rfl⟩
  | succ m => exact ⟨_, rfl⟩

theorem reachSet_len_le (g : Graph) (vs : List Nat) (u m : Nat) :
    (reachSet g vs u m).length ≤ vs.length := by
  obtain ⟨p, hp⟩ := reachSet_filter_form g vs u m
  rw [hp]
  exact List.length_filter_le _ _

theorem filter_sublist_filter_of_imp (l : List Nat) (p q : Nat → Bool)
    (h : ∀ a ∈ l, p a = true → q a = true) : List.Sublist (l.filter p) (l.filter q) := by
  induction l with
  | nil => exact List.Sublist.refl _
  | cons a l ih =>
    have ih2 := ih (fun b hb => h b (List.mem_cons_of_mem a hb))
    by_cases hp : p a = true
    · have hq := h a (List.mem_cons_self a l) hp
      rw [List.filter_cons_of_pos hp, List.filter_cons_of_pos hq]
      exact ih2.cons₂ a
    · rw [List.filter_cons_of_neg (by simpa using hp)]
      by_cases hq : q a = true
      · rw [List.filter_cons_of_pos hq]
        exact ih2.cons a
      · rw [List.filter_cons_of_neg (by simpa using hq)]
        exact ih2

theorem reachSet_sublist_succ (g : Graph) (vs : List Nat) (u m : Nat) :
    List.Sublist (reachSet g vs u m) (reachSet g vs u (m + 1)) := by
  obtain ⟨p, hp⟩ := reachSet_filter_form g vs u m
  obtain ⟨q, hq⟩ := reachSet_filter_form g vs u (m + 1)
  rw [hp, hq]
  apply filter_sublist_filter_of_imp
  intro a ha hpa
  have h1 : a ∈ reachSet g vs u m := by
    rw [hp]
    exact List.mem_filter.2 ⟨ha, hpa⟩
  have h2 := reachSet_mono_succ g vs u m h1
  rw [hq] at h2
  exact (List.mem_filter.1 h2).2

theorem reachSet_fix_exists (g : Graph) (vs : List Nat) (u : Nat) :
    ∃ i, i ≤ vs.length ∧ reachSet g vs u (i + 1) = reachSet g vs u i := by
  by_contra hc
  push_neg at hc
  have key : ∀ j, j ≤ vs.length + 1 → j ≤ (reachSet g vs u j).length := by
    intro j
    induction j with
    | zero => intro _; exact Nat.zero_le _
    | succ n ih =>
      intro hj
      have h1 : n ≤ (reachSet g vs u n).length := ih (le_trans (Nat.le_succ n) hj)
      have hne : reachSet g vs u (n + 1) ≠ reachSet g vs u n :=
        hc n (Nat.lt_succ_iff.1 hj)
      have hsub := reachSet_sublist_succ g vs u n
      have hlt : (reachSet g vs u n).length < (reachSet g vs u (n + 1)).length := by
        rcases Nat.eq_or_lt_of_le hsub.length_le with he | hl
        · exact absurd (hsub.eq_of_length he) (Ne.symm hne)
        · exact hl
      omega
  have h1 := key (vs.length + 1) (le_refl _)
  have h2 := reachSet_len_le g vs u (vs.length + 1)
  omega

theorem reachSet_stab (g : Graph) (vs : List Nat) (u i : Nat)
    (hfix : reachSet g vs u (i + 1) = reachSet g vs u i) (j : Nat) :
    reachSet g vs u (i + j) = reachSet g vs u i := by
  induction j with
  | zero => rfl
  | succ n ih =>
    rw [show i + (n + 1) = (i + n) + 1 from rfl, reachSet, ih]
    exact hfix

theorem reachSet_complete (g : Graph) (vs : List Nat) (u : Nat) (hu : u ∈ vs) {w : Nat}
    (h : ReachP g vs u w) : w ∈ reachSet g vs u vs.length := by
  obtain ⟨i, hi, hfix⟩ := reachSet_fix_exists g vs u
  have habs : ∀ x, ReachP g vs u x → x ∈ reachSet g vs u i := by
    intro x hx
    induction hx with
    | refl => exact reachSet_mono_le g vs u (mem_reachSet_zero g vs u hu) (Nat.zero_le i)
    | tail hab hbc ih =>
      rename_i b c
      have hstep : c ∈ reachSet g vs u (i + 1) := by
        rw [reachSet, reachStep]
        refine List.mem_filter.2 ⟨hbc.2.1, ?_⟩
        simp only [Bool.or_eq_true, List.any_eq_true]
        exact Or.inr ⟨b, ih, hbc.2.2⟩
      rw [hfix] at hstep
      exact hstep
  have hlen : reachSet g vs u vs.length = reachSet g vs u i := by
    have hst := reachSet_stab g vs u i hfix (vs.length - i)
    rwa [Nat.add_sub_cancel' hi] at hst
  rw [hlen]
  exact habs w h

theorem reachableB_iff (g : Graph) (vs : List Nat) (u v : Nat) (hu : u ∈ vs) :
    reachableB g vs u v = true ↔ (ReachP g vs u v ∧ v ∈ vs) := by
  rw [reachableB, decide_eq_true_eq]
  constructor
  · intro h
    exact ⟨reachSet_sound g vs u _ h, reachSet_subset g vs u _ h⟩
  · intro h
    exact reachSet_complete g vs u hu h.1

theorem mem_compClass (g : Graph) (vs : List Nat) (v w : Nat) :
    w ∈ compClass g vs v ↔ w ∈ vs ∧ reachableB g vs v w = true := List.mem_filter

theorem self_mem_compClass (g : Graph) (vs : List Nat) (v : Nat) (hv : v ∈ vs) :
    v ∈ compClass g vs v :=
  (mem_compClass g vs v v).2
    ⟨hv, (reachableB_iff g vs v v hv).2 ⟨Relation.ReflTransGen.refl, hv⟩⟩

theorem compClass_congr (g : Graph) (vs : List Nat) {u v : Nat} (hu : u ∈ vs) (hv : v ∈ vs)
    (h : reachableB g vs u v = true) : compClass g vs u = compClass g vs v := by
  have hr : ReachP g vs u v := ((reachableB_iff g vs u v hu).1 h).1
  apply List.filter_congr
  intro w hw
  apply bool_eq_of_iff
  rw [reachableB_iff g vs u w hu, reachableB_iff g vs v w hv]
  constructor
  · intro hx
    exact ⟨Relation.ReflTransGen.trans (ReachP_symm g vs hr) hx.1, hx.2⟩
  · intro hx
    exact ⟨Relation.ReflTransGen.trans hr hx.1, hx.2⟩

theorem compClass_eq_of_common (g : Graph) (vs : List Nat) {u v w : Nat}
    (hu : u ∈ vs) (hv : v ∈ vs) (hw1 : w ∈ compClass g vs u) (hw2 : w ∈ compClass g vs v) :
    compClass g vs u = compClass g vs v := by
  have h1 : ReachP g vs u w := ((reachableB_iff g vs u w hu).1 ((mem_compClass g vs u w).1 hw1).2).1
  have h2 : ReachP g vs v w := ((reachableB_iff g vs v w hv).1 ((mem_compClass g vs v w).1 hw2).2).1
  have huv : ReachP g vs u v := Relation.ReflTransGen.trans h1 (ReachP_symm g vs h2)
  exact compClass_congr g vs hu hv ((reachableB_iff g vs u v hu).2 ⟨huv, hv⟩)

theorem mem_induced_components (g : Graph) (vs : List Nat) (C : List Nat) :
    C ∈ induced_components g vs ↔
      ∃ r, r ∈ vs ∧ compRep g vs r = true ∧ C = compClass g vs r := by
  rw [induced_components]
  constructor
  · intro h
    obtain ⟨r, hr, hC⟩ := List.mem_map.1 h
    have hr2 := List.mem_filter.1 hr
    exact ⟨r, hr2.1, hr2.2, hC.symm⟩
  · intro ⟨r, hrv, hrep, hC⟩
    exact List.mem_map.2 ⟨r, List.mem_filter.2 ⟨hrv, hrep⟩, hC.symm⟩

theorem compRep_head (g : Graph) (vs : List Nat) {r : Nat} (h : compRep g vs r = true) :
    (compClass g vs r).head? = some r := by
  rw [compRep, decide_eq_true_eq] at h
  exact h

theorem induced_components_cover (g : Graph) (vs : List Nat) (v : Nat) (hv : v ∈ vs) :
    ∃ C, C ∈ induced_components g vs ∧ v ∈ C := by
  have hself := self_mem_compClass g vs v hv
  obtain ⟨r, hr⟩ : ∃ r, (compClass g vs v).head? = some r := by
    cases hcl : (compClass g vs v).head? with
    | some r => exact ⟨r, rfl⟩
    | none =>
      rw [List.head?_eq_none_iff] at hcl
      rw [hcl] at hself
      exact absurd hself (List.not_mem_nil v)
  have hrmem : r ∈ compClass g vs v := by
    cases hcl : compClass g vs v with
    | nil =>
      rw [hcl] at hself
      exact absurd hself (List.not_mem_nil v)
    | cons a t =>
      rw [hcl] at hr
      have ha : a = r := by simpa using hr
      rw [ha]
      exact List.mem_cons_self r t
  have hrv : r ∈ vs := ((mem_compClass g vs v r).1 hrmem).1
  have hcc : compClass g vs v = compClass g vs r :=
    compClass_congr g vs hv hrv ((mem_compClass g vs v r).1 hrmem).2
  refine ⟨compClass g vs r, ?_, ?_⟩
  · refine (mem_induced_components g vs _).2 ⟨r, hrv, ?_, rfl⟩
    rw [compRep, decide_eq_true_eq, ← hcc]
    exact hr
  · rw [← hcc]
    exact hself

theorem induced_components_unique (g : Graph) (vs : List Nat) {C1 C2 : List Nat}
    (h1 : C1 ∈ induced_components g vs) (h2 : C2 ∈ induced_components g vs)
    {w : Nat} (hw1 : w ∈ C1) (hw2 : w ∈ C2) : C1 = C2 := by
  obtain ⟨r1, hr1v, hrep1, rfl⟩ := (mem_induced_components g vs C1).1 h1
  obtain ⟨r2, hr2v, hrep2, rfl⟩ := (mem_induced_components g vs C2).1 h2
  exact compClass_eq_of_common g vs hr1v hr2v hw1 hw2

theorem induced_components_subset (g : Graph) (vs : List Nat) {C : List Nat}
    (h : C ∈ induced_components g vs) {w : Nat} (hw : w ∈ C) : w ∈ vs := by
  obtain ⟨r, hrv, hrep, rfl⟩ := (mem_induced_components g vs C).1 h
  exact ((mem_compClass g vs r w).1 hw).1

theorem induced_components_ne_nil (g : Graph) (vs : List Nat) {C : List Nat}
    (h : C ∈ induced_components g vs) : C ≠ [] := by
  obtain ⟨r, hrv, hrep, rfl⟩ := (mem_induced_components g vs C).1 h
  exact List.ne_nil_of_mem (self_mem_compClass g vs r hrv)

theorem induced_components_merge (g : Graph) {vs vs' : List Nat}
    (hsub : ∀ x ∈ vs', x ∈ vs) {C' : List Nat} (h : C' ∈ induced_components g vs') :
    ∃ C, C ∈ induced_components g vs ∧ ∀ x ∈ C', x ∈ C := by
  obtain ⟨r, hrv, hrep, rfl⟩ := (mem_induced_components g vs' C').1 h
  obtain ⟨C, hC, hrC⟩ := induced_components_cover g vs r (hsub r hrv)
  refine ⟨C, hC, ?_⟩
  intro x hx
  obtain ⟨rc, hrcv, hrepc, rfl⟩ := (mem_induced_components g vs C).1 hC
  have hx2 := (mem_compClass g vs' r x).1 hx
  have hRrx : ReachP g vs r x :=
    ReachP_mono g hsub ((reachableB_iff g vs' r x hrv).1 hx2.2).1
  have hRcr : ReachP g vs rc r :=
    ((reachableB_iff g vs rc r hrcv).1 ((mem_compClass g vs rc r).1 hrC).2).1
  refine (mem_compClass g vs rc x).2 ⟨hsub x hx2.1, ?_⟩
  exact (reachableB_iff g vs rc x hrcv).2
    ⟨Relation.ReflTransGen.trans hRcr hRrx, hsub x hx2.1⟩

theorem induced_components_nodup (g : Graph) (vs : List Nat) (hnd : vs.Nodup) :
    (induced_components g vs).Nodup := by
  rw [induced_components]
  refine List.Nodup.map_on ?_ (hnd.filter _)
  intro r1 h1 r2 h2 heq
  have e1 : (compClass g vs r1).head? = some r1 := compRep_head g vs (List.mem_filter.1 h1).2
  have e2 : (compClass g vs r2).head? = some r2 := compRep_head g vs (List.mem_filter.1 h2).2
  rw [heq, e2] at e1
  exact (Option.some.injEq _ _ ▸ e1).symm ▸ rfl

theorem induced_components_mem_nodup (g : Graph) (vs : List Nat) (hnd : vs.Nodup)
    {C : List Nat} (h : C ∈ induced_components g vs) : C.Nodup := by
  obtain ⟨r, hrv, hrep, rfl⟩ := (mem_induced_components g vs C).1 h
  exact hnd.filter _

/-! Phase C: structure of the level sequence and the flattened pipeline. -/

theorem le_foldr_max (l : List Nat) {x : Nat} (h : x ∈ l) : x ≤ l.foldr Nat.max 0 := by
  induction l with
  | nil => cases h
  | cons a t ih =>
    rcases List.mem_cons.1 h with rfl | h2
    · exact Nat.le_max_left _ _
    · exact le_trans (ih h2) (Nat.le_max_right _ _)

theorem mem_dedupSorted (c : List Nat) (k : Nat) : k ∈ dedupSorted c ↔ k ∈ c := by
  rw [dedupSorted]
  constructor
  · intro h
    have h2 := (List.mem_filter.1 h).2
    simpa using h2
  · intro h
    refine List.mem_filter.2 ⟨?_, by simpa using h⟩
    rw [List.mem_range]
    exact Nat.lt_succ_of_le (le_foldr_max c h)

theorem dedupSorted_pairwise (c : List Nat) : (dedupSorted c).Pairwise (· < ·) :=
  List.Pairwise.sublist (List.filter_sublist _) (List.pairwise_lt_range _)

theorem dedupSorted_head_le (c : List Nat) {k0 : Nat} {rest : List Nat}
    (h : dedupSorted c = k0 :: rest) {k : Nat} (hk : k ∈ dedupSorted c) : k0 ≤ k := by
  rw [h] at hk
  rcases List.mem_cons.1 hk with rfl | h2
  · exact le_refl k
  · have hp := dedupSorted_pairwise c
    rw [h, List.pairwise_cons] at hp
    exact le_of_lt (hp.1 k h2)

theorem mem_filter_vertices (k : Nat) (c : List Nat) (v : Nat) :
    v ∈ filter_vertices k c ↔ v < c.length ∧ k ≤ c.getD v 0 := by
  rw [filter_vertices, List.mem_filter, List.mem_range]
  simp

theorem filter_vertices_nodup (k : Nat) (c : List Nat) : (filter_vertices k c).Nodup :=
  List.Nodup.filter _ (List.nodup_range _)

theorem filter_vertices_antitone (c : List Nat) {k k' : Nat} (h : k ≤ k') {v : Nat}
    (hv : v ∈ filter_vertices k' c) : v ∈ filter_vertices k c := by
  rw [mem_filter_vertices] at hv ⊢
  exact ⟨hv.1, le_trans h hv.2⟩

theorem getD_mem_self (c : List Nat) {v : Nat} (h : v < c.length) : c.getD v 0 ∈ c := by
  rw [List.getD_eq_getElem _ _ h]
  exact List.getElem_mem h

theorem mem_filter_vertices_min (c : List Nat) {k0 : Nat} {rest : List Nat}
    (h : dedupSorted c = k0 :: rest) {v : Nat} (hv : v < c.length) :
    v ∈ filter_vertices k0 c := by
  rw [mem_filter_vertices]
  refine ⟨hv, ?_⟩
  exact dedupSorted_head_le c h ((mem_dedupSorted c _).2 (getD_mem_self c hv))

theorem exists_mem_filter_vertices (c : List Nat) {k : Nat} (hk : k ∈ c) :
    ∃ v, v ∈ filter_vertices k c := by
  obtain ⟨i, hi, hgi⟩ := List.getElem_of_mem hk
  refine ⟨i, ?_⟩
  rw [mem_filter_vertices]
  refine ⟨hi, ?_⟩
  rw [List.getD_eq_getElem _ _ hi, hgi]

theorem compsEntry_mem_nodup (g : Graph) (c : List Nat) (k : Nat) {C : List Nat}
    (h : C ∈ compsEntry g c k) : C.Nodup := by
  rw [compsEntry] at h
  by_cases hk : 0 < k
  · rw [if_pos hk] at h
    exact induced_components_mem_nodup g _ (filter_vertices_nodup _ _) h
  · rw [if_neg hk] at h
    have hC : C = filter_vertices k c := by simpa using h
    rw [hC]
    exact filter_vertices_nodup _ _

theorem compsEntry_subset (g : Graph) (c : List Nat) (k : Nat) {C : List Nat}
    (h : C ∈ compsEntry g c k) {w : Nat} (hw : w ∈ C) : w ∈ filter_vertices k c := by
  rw [compsEntry] at h
  by_cases hk : 0 < k
  · rw [if_pos hk] at h
    exact induced_components_subset g _ h hw
  · rw [if_neg hk] at h
    have hC : C = filter_vertices k c := by simpa using h
    rw [hC] at hw
    exact hw

theorem compsEntry_nodup (g : Graph) (c : List Nat) (k : Nat) :
    (compsEntry g c k).Nodup := by
  rw [compsEntry]
  by_cases hk : 0 < k
  · rw [if_pos hk]
    exact induced_components_nodup g _ (filter_vertices_nodup _ _)
  · rw [if_neg hk]
    exact List.nodup_singleton _

theorem compsEntry_cover (g : Graph) (c : List Nat) (k : Nat) {v : Nat}
    (hv : v ∈ filter_vertices k c) : ∃ C, C ∈ compsEntry g c k ∧ v ∈ C := by
  rw [compsEntry]
  by_cases hk : 0 < k
  · rw [if_pos hk]
    exact induced_components_cover g _ v hv
  · rw [if_neg hk]
    exact ⟨filter_vertices k c, List.mem_singleton_self _, hv⟩

theorem compsEntry_unique (g : Graph) (c : List Nat) (k : Nat) {C1 C2 : List Nat}
    (h1 : C1 ∈ compsEntry g c k) (h2 : C2 ∈ compsEntry g c k) {w : Nat}
    (hw1 : w ∈ C1) (hw2 : w ∈ C2) : C1 = C2 := by
  rw [compsEntry] at h1 h2
  by_cases hk : 0 < k
  · rw [if_pos hk] at h1 h2
    exact induced_components_unique g _ h1 h2 hw1 hw2
  · rw [if_neg hk] at h1 h2
    have e1 : C1 = filter_vertices k c := by simpa using h1
    have e2 : C2 = filter_vertices k c := by simpa using h2
    rw [e1, e2]

theorem compsEntry_ne_nil (g : Graph) (c : List Nat) (k : Nat) (hk : k ∈ c) {C : List Nat}
    (h : C ∈ compsEntry g c k) : C ≠ [] := by
  rw [compsEntry] at h
  by_cases hkp : 0 < k
  · rw [if_pos hkp] at h
    exact induced_components_ne_nil g _ h
  · rw [if_neg hkp] at h
    have hC : C = filter_vertices k c := by simpa using h
    obtain ⟨v, hv⟩ := exists_mem_filter_vertices c hk
    rw [hC]
    exact List.ne_nil_of_mem hv

theorem compsEntry_merge (g : Graph) (c : List Nat) {k k' : Nat} (hle : k ≤ k')
    {C' : List Nat} (h : C' ∈ compsEntry g c k') (hk' : 0 < k') :
    ∃ C, C ∈ compsEntry g c k ∧ ∀ x ∈ C', x ∈ C := by
  rw [compsEntry, if_pos hk'] at h
  rw [compsEntry]
  by_cases hkp : 0 < k
  · rw [if_pos hkp]
    exact induced_components_merge g (fun x hx => filter_vertices_antitone c hle hx) h
  · rw [if_neg hkp]
    refine ⟨filter_vertices k c, List.mem_singleton_self _, ?_⟩
    intro x hx
    exact filter_vertices_antitone c hle (induced_components_subset g _ h hx)

/-- The flattened (level, component) sequence of the pipeline. -/
def flatP (g : Graph) (c : List Nat) : List (Nat × List Nat) :=
  flatten_cd (build_vertex_sets_c g c)

theorem flatP_eq_flatMap (g : Graph) (c : List Nat) :
    flatP g c = (dedupSorted c).flatMap
      (fun k => (compsEntry g c k).map (fun C => (k, C))) := by
  rw [flatP, build_vertex_sets_c, flatten_cd]
  induction dedupSorted c with
  | nil => rfl
  | cons k t ih =>
    rw [List.map_cons, List.flatMap_cons, List.flatMap_cons, ih]

theorem mem_flatP (g : Graph) (c : List Nat) {k : Nat} {C : List Nat} :
    (k, C) ∈ flatP g c ↔ k ∈ dedupSorted c ∧ C ∈ compsEntry g c k := by
  rw [flatP_eq_flatMap, List.mem_flatMap]
  constructor
  · intro ⟨k', hk', hC⟩
    obtain ⟨C', hC', heq⟩ := List.mem_map.1 hC
    have h1 : k' = k := congrArg Prod.fst heq
    have h2 : C' = C := congrArg Prod.snd heq
    subst h1
    subst h2
    exact ⟨hk', hC'⟩
  · intro ⟨hk, hC⟩
    exact ⟨k, hk, List.mem_map.2 ⟨C, hC, rfl⟩⟩

theorem pairwise_flatMap_groups (G : Nat → List (Nat × List Nat)) (l : List Nat)
    (hfst : ∀ k e, e ∈ G k → e.1 = k) (hl : l.Pairwise (· < ·)) :
    (l.flatMap G).Pairwise (fun a b => a.1 ≤ b.1) := by
  induction l with
  | nil => exact List.Pairwise.nil
  | cons k t ih =>
    rw [List.pairwise_cons] at hl
    rw [List.flatMap_cons, List.pairwise_append]
    refine ⟨?_, ih hl.2, ?_⟩
    · exact List.pairwise_of_forall_mem_list (fun a ha b hb => by
        rw [hfst k a ha, hfst k b hb])
    · intro a ha b hb
      obtain ⟨k', hk', hbk⟩ := List.mem_flatMap.1 hb
      rw [hfst k a ha, hfst k' b hbk]
      exact le_of_lt (hl.1 k' hk')

theorem nodup_flatMap_groups (G : Nat → List (Nat × List Nat)) (l : List Nat)
    (hfst : ∀ k e, e ∈ G k → e.1 = k) (hG : ∀ k ∈ l, (G k).Nodup)
    (hl : l.Pairwise (· < ·)) : (l.flatMap G).Nodup := by
  induction l with
  | nil => exact List.Pairwise.nil
  | cons k t ih =>
    rw [List.pairwise_cons] at hl
    rw [List.flatMap_cons, List.nodup_append]
    refine ⟨hG k (List.mem_cons_self k t),
      ih (fun k' hk' => hG k' (List.mem_cons_of_mem k hk')) hl.2, ?_⟩
    intro a ha hb
    obtain ⟨k', hk', hbk⟩ := List.mem_flatMap.1 hb
    have h1 := hfst k a ha
    have h2 := hfst k' a hbk
    have h3 := hl.1 k' hk'
    omega

theorem flatP_pairwise_le (g : Graph) (c : List Nat) :
    (flatP g c).Pairwise (fun a b => a.1 ≤ b.1) := by
  rw [flatP_eq_flatMap]
  refine pairwise_flatMap_groups _ _ ?_ (dedupSorted_pairwise c)
  intro k e he
  obtain ⟨C, hC, heq⟩ := List.mem_map.1 he
  exact (congrArg Prod.fst heq).symm

theorem flatP_nodup (g : Graph) (c : List Nat) : (flatP g c).Nodup := by
  rw [flatP_eq_flatMap]
  refine nodup_flatMap_groups _ _ ?_ ?_ (dedupSorted_pairwise c)
  · intro k e he
    obtain ⟨C, hC, heq⟩ := List.mem_map.1 he
    exact (congrArg Prod.fst heq).symm
  · intro k _
    exact List.Nodup.map (fun a b hab => congrArg Prod.snd hab) (compsEntry_nodup g c k)

theorem flatP_fst_le (g : Graph) (c : List Nat) {i j : Nat} (hij : i ≤ j)
    (hj : j < (flatP g c).length) :
    ((flatP g c).getD i entD).1 ≤ ((flatP g c).getD j entD).1 := by
  rcases Nat.eq_or_lt_of_le hij with rfl | hlt
  · exact le_refl _
  · have hi : i < (flatP g c).length := lt_trans hlt hj
    have hp := flatP_pairwise_le g c
    rw [List.pairwise_iff_getElem] at hp
    rw [List.getD_eq_getElem _ _ hi, List.getD_eq_getElem _ _ hj]
    exact hp i j hi hj hlt

theorem flatP_get_mem (g : Graph) (c : List Nat) {i : Nat} (hi : i < (flatP g c).length) :
    ((flatP g c).getD i entD).1 ∈ dedupSorted c ∧
      ((flatP g c).getD i entD).2 ∈ compsEntry g c ((flatP g c).getD i entD).1 := by
  have hm : (flatP g c).getD i entD ∈ flatP g c := by
    rw [List.getD_eq_getElem _ _ hi]
    exact List.getElem_mem hi
  have hm2 : (((flatP g c).getD i entD).1, ((flatP g c).getD i entD).2) ∈ flatP g c := by
    rw [Prod.mk.eta]
    exact hm
  exact (mem_flatP g c).1 hm2

theorem flatP_same_level_disjoint (g : Graph) (c : List Nat) {i j : Nat}
    (hi : i < (flatP g c).length) (hj : j < (flatP g c).length) (hne : i ≠ j)
    (hk : ((flatP g c).getD i entD).1 = ((flatP g c).getD j entD).1) {v : Nat}
    (hv1 : v ∈ ((flatP g c).getD i entD).2) (hv2 : v ∈ ((flatP g c).getD j entD).2) :
    False := by
  have hgi := flatP_get_mem g c hi
  have hgj := flatP_get_mem g c hj
  have hCj : ((flatP g c).getD j entD).2 ∈ compsEntry g c ((flatP g c).getD i entD).1 := by
    rw [hk]
    exact hgj.2
  have hCeq : ((flatP g c).getD i entD).2 = ((flatP g c).getD j entD).2 :=
    compsEntry_unique g c _ hgi.2 hCj hv1 hv2
  have hee : (flatP g c).getD i entD = (flatP g c).getD j entD :=
    Prod.ext hk hCeq
  rw [List.getD_eq_getElem _ _ hi, List.getD_eq_getElem _ _ hj] at hee
  exact hne ((List.Nodup.getElem_inj_iff (flatP_nodup g c)).1 hee)

theorem flatP_cover (g : Graph) (c : List Nat) {k v : Nat} (hk : k ∈ dedupSorted c)
    (hv : v ∈ filter_vertices k c) :
    ∃ i, i < (flatP g c).length ∧ ((flatP g c).getD i entD).1 = k ∧
      v ∈ ((flatP g c).getD i entD).2 := by
  obtain ⟨C, hC, hvC⟩ := compsEntry_cover g c k hv
  have hmem : (k, C) ∈ flatP g c := (mem_flatP g c).2 ⟨hk, hC⟩
  obtain ⟨i, hi, hgi⟩ := List.getElem_of_mem hmem
  refine ⟨i, hi, ?_, ?_⟩
  · rw [List.getD_eq_getElem _ _ hi, hgi]
  · rw [List.getD_eq_getElem _ _ hi, hgi]
    exact hvC

theorem flatP_subset (g : Graph) (c : List Nat) {i : Nat} (hi : i < (flatP g c).length)
    {w : Nat} (hw : w ∈ ((flatP g c).getD i entD).2) :
    w ∈ filter_vertices ((flatP g c).getD i entD).1 c :=
  compsEntry_subset g c _ (flatP_get_mem g c hi).2 hw

theorem flatP_ne_nil (g : Graph) (c : List Nat) {i : Nat} (hi : i < (flatP g c).length) :
    ((flatP g c).getD i entD).2 ≠ [] := by
  have hg := flatP_get_mem g c hi
  exact compsEntry_ne_nil g c _ ((mem_dedupSorted c _).1 hg.1) hg.2

theorem flatP_mem_nodup (g : Graph) (c : List Nat) :
    ∀ e ∈ flatP g c, e.2.Nodup := by
  intro e he
  have he2 : (e.1, e.2) ∈ flatP g c := by
    rw [Prod.mk.eta]
    exact he
  exact compsEntry_mem_nodup g c e.1 ((mem_flatP g c).1 he2).2

theorem blocksOf_eq (g : Graph) (c : List Nat) :
    component_lists_to_blocks (build_vertex_sets_c g c) = blocksSpec (flatP g c) :=
  clb_eq _ (flatP_mem_nodup g c)

theorem mem_blocksOf (g : Graph) (c : List Nat) {b : Block} :
    b ∈ component_lists_to_blocks (build_vertex_sets_c g c) ↔
      ∃ i, i < (flatP g c).length ∧ b = mkBlock (flatP g c) i := by
  rw [blocksOf_eq, blocksSpec]
  constructor
  · intro h
    obtain ⟨i, hi, hb⟩ := List.mem_map.1 h
    exact ⟨i, List.mem_range.1 hi, hb.symm⟩
  · intro ⟨i, hi, hb⟩
    exact List.mem_map.2 ⟨i, List.mem_range.2 hi, hb.symm⟩

/-! Characterizations of ancestry histories and resolved parents. -/

theorem histOf_eq_nil_iff (flat : List (Nat × List Nat)) (i v : Nat) :
    histOf flat i v = [] ↔ ∀ j, j < i → v ∉ (flat.getD j entD).2 := by
  rw [histOf, List.filter_eq_nil_iff]
  constructor
  · intro h j hj hv
    exact h j (List.mem_range.2 hj) (by simpa using hv)
  · intro h j hj hv
    exact h j (List.mem_range.1 hj) (by simpa using hv)

theorem histOf_getLast (flat : List (Nat × List Nat)) (i v p : Nat) :
    (histOf flat i v).getLast? = some p ↔
      p < i ∧ v ∈ (flat.getD p entD).2 ∧
        ∀ j, p < j → j < i → v ∉ (flat.getD j entD).2 := by
  induction i with
  | zero =>
    rw [histOf]
    simp
  | succ n ih =>
    rw [histOf, List.range_succ, List.filter_append]
    rw [show (List.range n).filter (fun j => decide (v ∈ (flat.getD j entD).2))
      = histOf flat n v from rfl]
    by_cases hv : v ∈ (flat.getD n entD).2
    · rw [show List.filter (fun j => decide (v ∈ (flat.getD j entD).2)) [n] = [n] from by
        rw [List.filter_cons_of_pos (by simpa using hv), List.filter_nil]]
      rw [List.getLast?_concat]
      constructor
      · intro h
        have hp : p = n := by simpa using h.symm
        subst hp
        exact ⟨Nat.lt_succ_self p, hv, fun j hj1 hj2 => by omega⟩
      · intro ⟨h1, h2, h3⟩
        have hp : p = n := by
          by_contra hne
          exact h3 n (by omega) (Nat.lt_succ_self n) hv
        rw [hp]
    · rw [show List.filter (fun j => decide (v ∈ (flat.getD j entD).2)) [n] = [] from by
        rw [List.filter_cons_of_neg (by simpa using hv), List.filter_nil]]
      rw [List.append_nil, ih]
      constructor
      · intro ⟨h1, h2, h3⟩
        refine ⟨by omega, h2, fun j hj1 hj2 => ?_⟩
        rcases Nat.lt_succ_iff_lt_or_eq.1 hj2 with h | rfl
        · exact h3 j hj1 h
        · exact hv
      · intro ⟨h1, h2, h3⟩
        have hpn : p ≠ n := fun e => hv (e ▸ h2)
        exact ⟨by omega, h2, fun j hj1 hj2 => h3 j hj1 (by omega)⟩

theorem firstParent_eq_none_iff (anc : Nat → List Nat) (l : List Nat) :
    firstParent anc l = none ↔ ∀ v ∈ l, anc v = [] := by
  induction l with
  | nil => simp [firstParent]
  | cons v rest ih =>
    cases hl : (anc v).getLast? with
    | some q =>
      have he : firstParent anc (v :: rest) = some q := by rw [firstParent, hl]
      rw [he]
      simp only [false_iff, reduceCtorEq]
      intro h
      have hnil := h v (List.mem_cons_self v rest)
      rw [hnil] at hl
      exact absurd hl (by simp)
    | none =>
      have he : firstParent anc (v :: rest) = firstParent anc rest := by
        rw [firstParent, hl]
      rw [he, ih]
      have hvnil : anc v = [] := by
        rw [← List.getLast?_eq_none_iff]
        exact hl
      constructor
      · intro h w hw
        rcases List.mem_cons.1 hw with rfl | hw2
        · exact hvnil
        · exact h w hw2
      · intro h w hw
        exact h w (List.mem_cons_of_mem v hw)

theorem firstParent_eq_some (anc : Nat → List Nat) (l : List Nat) {p : Nat}
    (h : firstParent anc l = some p) : ∃ v ∈ l, (anc v).getLast? = some p := by
  induction l with
  | nil => cases h
  | cons v rest ih =>
    cases hl : (anc v).getLast? with
    | some q =>
      have he : firstParent anc (v :: rest) = some q := by rw [firstParent, hl]
      rw [he] at h
      refine ⟨v, List.mem_cons_self v rest, ?_⟩
      rw [hl, h]
    | none =>
      have he : firstParent anc (v :: rest) = firstParent anc rest := by
        rw [firstParent, hl]
      rw [he] at h
      obtain ⟨w, hw, hww⟩ := ih h
      exact ⟨w, List.mem_cons_of_mem v hw, hww⟩

/-! The pipeline invariants, for an arbitrary coreness vector. -/

theorem mkBlock_parent_some (g : Graph) (c : List Nat) {i p : Nat}
    (hi : i < (flatP g c).length) (hp : parentOf (flatP g c) i = some p) :
    p < i ∧ (∀ v ∈ ((flatP g c).getD i entD).2, v ∈ ((flatP g c).getD p entD).2) ∧
      ((flatP g c).getD p entD).1 < ((flatP g c).getD i entD).1 := by
  rw [parentOf] at hp
  obtain ⟨v0, hv0, hlast⟩ := firstParent_eq_some _ _ hp
  rw [histOf_getLast] at hlast
  obtain ⟨hpi, hv0p, _⟩ := hlast
  have hplen : p < (flatP g c).length := lt_trans hpi hi
  have hle : ((flatP g c).getD p entD).1 ≤ ((flatP g c).getD i entD).1 :=
    flatP_fst_le g c (le_of_lt hpi) hi
  have hlt : ((flatP g c).getD p entD).1 < ((flatP g c).getD i entD).1 := by
    rcases Nat.eq_or_lt_of_le hle with he | hl
    · exact (flatP_same_level_disjoint g c hplen hi (by omega) he hv0p hv0).elim
    · exact hl
  refine ⟨hpi, ?_, hlt⟩
  have h0i : 0 < ((flatP g c).getD i entD).1 := by omega
  have hCi := (flatP_get_mem g c hi).2
  obtain ⟨C, hC, hsub⟩ := compsEntry_merge g c hle hCi h0i
  have hv0C : v0 ∈ C := hsub v0 hv0
  have hCp := (flatP_get_mem g c hplen).2
  have hCeq : C = ((flatP g c).getD p entD).2 :=
    compsEntry_unique g c _ hC hCp hv0C hv0p
  intro v hv
  rw [← hCeq]
  exact hsub v hv

theorem parentOf_eq_none_iff (g : Graph) (c : List Nat) {i : Nat}
    (hi : i < (flatP g c).length) {k0 : Nat} {rest : List Nat}
    (hlev : dedupSorted c = k0 :: rest) :
    parentOf (flatP g c) i = none ↔ ((flatP g c).getD i entD).1 = k0 := by
  constructor
  · intro h
    by_contra hne
    have hmem := (flatP_get_mem g c hi).1
    have hk0le : k0 ≤ ((flatP g c).getD i entD).1 := dedupSorted_head_le c hlev hmem
    have hk0lt : k0 < ((flatP g c).getD i entD).1 := by omega
    obtain ⟨v0, hv0⟩ := List.exists_mem_of_ne_nil _ (flatP_ne_nil g c hi)
    have hv0S : v0 ∈ filter_vertices ((flatP g c).getD i entD).1 c := flatP_subset g c hi hv0
    have hv0len : v0 < c.length := ((mem_filter_vertices _ c v0).1 hv0S).1
    have hv0S0 : v0 ∈ filter_vertices k0 c := mem_filter_vertices_min c hlev hv0len
    have hk0mem : k0 ∈ dedupSorted c := by
      rw [hlev]
      exact List.mem_cons_self k0 rest
    obtain ⟨q, hq, hfq, hvq⟩ := flatP_cover g c hk0mem hv0S0
    have hqi : q < i := by
      by_contra hge
      have hle2 : ((flatP g c).getD i entD).1 ≤ ((flatP g c).getD q entD).1 :=
        flatP_fst_le g c (by omega) hq
      omega
    rw [parentOf, firstParent_eq_none_iff] at h
    have hnil := h v0 hv0
    rw [histOf_eq_nil_iff] at hnil
    exact hnil q hqi hvq
  · intro h
    rw [parentOf, firstParent_eq_none_iff]
    intro v hv
    rw [histOf_eq_nil_iff]
    intro j hj hvj
    have hjlen : j < (flatP g c).length := lt_trans hj hi
    have hle2 : ((flatP g c).getD j entD).1 ≤ ((flatP g c).getD i entD).1 :=
      flatP_fst_le g c (le_of_lt hj) hi
    have hjmem := (flatP_get_mem g c hjlen).1
    have hk0le : k0 ≤ ((flatP g c).getD j entD).1 := dedupSorted_head_le c hlev hjmem
    have heq : ((flatP g c).getD j entD).1 = ((flatP g c).getD i entD).1 := by omega
    exact flatP_same_level_disjoint g c hjlen hi (by omega) heq hvj hv

theorem pipeline_nesting (g : Graph) (c : List Nat) {b : Block}
    (hb : b ∈ component_lists_to_blocks (build_vertex_sets_c g c)) {p : Nat}
    (hp : b.parent = some p) :
    ∃ P ∈ component_lists_to_blocks (build_vertex_sets_c g c),
      P.idx = p ∧ (∀ v ∈ b.vertices, v ∈ P.vertices) ∧ P.klevel < b.klevel := by
  obtain ⟨i, hi, rfl⟩ := (mem_blocksOf g c).1 hb
  have hp2 : parentOf (flatP g c) i = some p := hp
  obtain ⟨hpi, hsub, hlt⟩ := mkBlock_parent_some g c hi hp2
  exact ⟨mkBlock (flatP g c) p,
    (mem_blocksOf g c).2 ⟨p, lt_trans hpi hi, rfl⟩, rfl, hsub, hlt⟩

theorem pipeline_parent_none_iff (g : Graph) (c : List Nat) {b : Block}
    (hb : b ∈ component_lists_to_blocks (build_vertex_sets_c g c))
    {k0 : Nat} {rest : List Nat} (hlev : dedupSorted c = k0 :: rest) :
    b.parent = none ↔ b.klevel = k0 := by
  obtain ⟨i, hi, rfl⟩ := (mem_blocksOf g c).1 hb
  exact parentOf_eq_none_iff g c hi hlev

theorem pipeline_disjoint (g : Graph) (c : List Nat) {b1 b2 : Block}
    (h1 : b1 ∈ component_lists_to_blocks (build_vertex_sets_c g c))
    (h2 : b2 ∈ component_lists_to_blocks (build_vertex_sets_c g c))
    (hk : b1.klevel = b2.klevel) (hne : b1.idx ≠ b2.idx) {v : Nat}
    (hv1 : v ∈ b1.vertices) (hv2 : v ∈ b2.vertices) : False := by
  obtain ⟨i, hi, rfl⟩ := (mem_blocksOf g c).1 h1
  obtain ⟨j, hj, rfl⟩ := (mem_blocksOf g c).1 h2
  exact flatP_same_level_disjoint g c hi hj hne hk hv1 hv2

theorem pipeline_union (g : Graph) (c : List Nat) (k : Nat) (hk : k ∈ dedupSorted c)
    (v : Nat) :
    (∃ b ∈ component_lists_to_blocks (build_vertex_sets_c g c),
        b.klevel = k ∧ v ∈ b.vertices) ↔ v ∈ filter_vertices k c := by
  constructor
  · intro ⟨b, hb, hbk, hbv⟩
    obtain ⟨i, hi, rfl⟩ := (mem_blocksOf g c).1 hb
    have hS := flatP_subset g c hi hbv
    have hkk : ((flatP g c).getD i entD).1 = k := hbk
    rw [hkk] at hS
    exact hS
  · intro hv
    obtain ⟨i, hi, hfi, hvi⟩ := flatP_cover g c hk hv
    exact ⟨mkBlock (flatP g c) i, (mem_blocksOf g c).2 ⟨i, hi, rfl⟩, hfi, hvi⟩

theorem pipeline_roots_union (g : Graph) (c : List Nat) {k0 : Nat} {rest : List Nat}
    (hlev : dedupSorted c = k0 :: rest) (v : Nat) :
    (∃ b ∈ component_lists_to_blocks (build_vertex_sets_c g c),
        b.parent = none ∧ v ∈ b.vertices) ↔ v < c.length := by
  constructor
  · intro ⟨b, hb, _, hbv⟩
    obtain ⟨i, hi, rfl⟩ := (mem_blocksOf g c).1 hb
    exact ((mem_filter_vertices _ c v).1 (flatP_subset g c hi hbv)).1
  · intro hv
    have hv0 : v ∈ filter_vertices k0 c := mem_filter_vertices_min c hlev hv
    have hk0 : k0 ∈ dedupSorted c := by
      rw [hlev]
      exact List.mem_cons_self k0 rest
    obtain ⟨i, hi, hfi, hvi⟩ := flatP_cover g c hk0 hv0
    refine ⟨mkBlock (flatP g c) i, (mem_blocksOf g c).2 ⟨i, hi, rfl⟩, ?_, hvi⟩
    exact (parentOf_eq_none_iff g c hi hlev).2 hfi

theorem blocksSpec_length (flat : List (Nat × List Nat)) :
    (blocksSpec flat).length = flat.length := by
  rw [blocksSpec, List.length_map, List.length_range]

theorem blocksSpec_getD (flat : List (Nat × List Nat)) {i : Nat} (hi : i < flat.length) :
    (blocksSpec flat).getD i default = mkBlock flat i := by
  have hlen : i < (blocksSpec flat).length := by
    rw [blocksSpec_length]
    exact hi
  rw [List.getD_eq_getElem _ _ hlen]
  simp [blocksSpec]

theorem dedupSorted_nodup (c : List Nat) : (dedupSorted c).Nodup :=
  List.Pairwise.imp (fun h => Nat.ne_of_lt h) (dedupSorted_pairwise c)

theorem range_getD_filter_map (L : List (Nat × List Nat)) (p : Nat × List Nat → Bool)
    (F : Nat × List Nat → List Nat) :
    ((List.range L.length).filter (fun i => p (L.getD i entD))).map
      (fun i => F (L.getD i entD)) = (L.filter p).map F := by
  induction L using List.reverseRecOn with
  | nil => rfl
  | append_singleton L x ih =>
    rw [List.length_append, List.length_singleton, List.range_succ, List.filter_append,
      List.map_append]
    have hcong : (List.range L.length).filter (fun i => p ((L ++ [x]).getD i entD))
        = (List.range L.length).filter (fun i => p (L.getD i entD)) := by
      apply List.filter_congr
      intro j hj
      rw [List.getD_append _ _ _ _ (List.mem_range.1 hj)]
    rw [hcong]
    have hmap : ((List.range L.length).filter (fun i => p (L.getD i entD))).map
        (fun i => F ((L ++ [x]).getD i entD))
        = ((List.range L.length).filter (fun i => p (L.getD i entD))).map
            (fun i => F (L.getD i entD)) := by
      apply List.map_congr_left
      intro j hj
      have hj2 := List.mem_range.1 (List.mem_of_mem_filter hj)
      rw [List.getD_append _ _ _ _ hj2]
    rw [hmap, ih, List.filter_append, List.map_append]
    congr 1
    by_cases hpx : p x = true
    · rw [List.filter_cons_of_pos (by rw [getD_concat_self]; exact hpx),
        List.filter_cons_of_pos hpx, List.filter_nil, List.filter_nil,
        List.map_singleton, List.map_singleton, getD_concat_self]
    · rw [List.filter_cons_of_neg (by rw [getD_concat_self]; simpa using hpx),
        List.filter_cons_of_neg (by simpa using hpx), List.filter_nil, List.filter_nil,
        List.map_nil, List.map_nil]

theorem flatMap_filter_key (G : Nat → List (Nat × List Nat)) (l : List Nat) (k : Nat)
    (hfst : ∀ k' e, e ∈ G k' → e.1 = k') (hnd : l.Nodup) :
    (l.flatMap G).filter (fun e => e.1 == k) = if k ∈ l then G k else [] := by
  induction l with
  | nil => simp
  | cons k' t ih =>
    rw [List.nodup_cons] at hnd
    rw [List.flatMap_cons, List.filter_append, ih hnd.2]
    by_cases hk : k' = k
    · subst hk
      have hfil : (G k').filter (fun e => e.1 == k') = G k' := by
        rw [List.filter_eq_self]
        intro e he
        simpa using hfst k' e he
      rw [hfil, if_pos (List.mem_cons_self k' t), if_neg hnd.1, List.append_nil]
    · have hfil : (G k').filter (fun e => e.1 == k) = [] := by
        rw [List.filter_eq_nil_iff]
        intro e he
        rw [hfst k' e he]
        simp [hk]
      rw [hfil, List.nil_append]
      by_cases hkt : k ∈ t
      · rw [if_pos hkt, if_pos (List.mem_cons_of_mem k' hkt)]
      · have hnm : k ∉ k' :: t := by
          intro hmem
          rcases List.mem_cons.1 hmem with h1 | h2
          · exact hk h1.symm
          · exact hkt h2
        rw [if_neg hkt, if_neg hnm]

theorem flatP_filter_level (g : Graph) (c : List Nat) (k : Nat) :
    (flatP g c).filter (fun e => e.1 == k)
      = if k ∈ dedupSorted c then (compsEntry g c k).map (fun C => (k, C)) else [] := by
  rw [flatP_eq_flatMap]
  refine flatMap_filter_key _ _ k ?_ (dedupSorted_nodup c)
  intro k' e he
  obtain ⟨C, _, heq⟩ := List.mem_map.1 he
  exact (congrArg Prod.fst heq).symm

theorem blocksOf_filter_level (g : Graph) (c : List Nat) (k : Nat) :
    ((component_lists_to_blocks (build_vertex_sets_c g c)).filter
        (fun b => b.klevel == k)).map Block.vertices
      = if k ∈ dedupSorted c then compsEntry g c k else [] := by
  rw [blocksOf_eq, blocksSpec, List.filter_map, List.map_map]
  have h1 : (List.range (flatP g c).length).filter
      ((fun b => b.klevel == k) ∘ mkBlock (flatP g c))
      = (List.range (flatP g c).length).filter
          (fun i => ((flatP g c).getD i entD).1 == k) :=
    List.filter_congr (fun i _ => rfl)
  rw [h1]
  have h2 : ((List.range (flatP g c).length).filter
      (fun i => ((flatP g c).getD i entD).1 == k)).map
        (Block.vertices ∘ mkBlock (flatP g c))
      = ((List.range (flatP g c).length).filter
          (fun i => ((flatP g c).getD i entD).1 == k)).map
            (fun i => ((flatP g c).getD i entD).2) :=
    List.map_congr_left (fun i _ => rfl)
  rw [h2]
  rw [show (List.range (flatP g c).length).filter
      (fun i => ((flatP g c).getD i entD).1 == k)
      = (List.range (flatP g c).length).filter
          (fun i => (fun (e : Nat × List Nat) => e.1 == k) ((flatP g c).getD i entD))
    from rfl]
  rw [range_getD_filter_map (flatP g c) (fun e => e.1 == k) (fun e => e.2),
    flatP_filter_level]
  by_cases hk : k ∈ dedupSorted c
  · rw [if_pos hk, if_pos hk, List.map_map]
    rw [show (fun (e : Nat × List Nat) => e.2) ∘ (fun C => (k, C)) = id from rfl,
      List.map_id]
  · rw [if_neg hk, if_neg hk, List.map_nil]

theorem pipeline_idx (g : Graph) (c : List Nat) (i : Nat)
    (hi : i < (component_lists_to_blocks (build_vertex_sets_c g c)).length) :
    ((component_lists_to_blocks (build_vertex_sets_c g c)).getD i default).idx = i := by
  rw [blocksOf_eq] at hi ⊢
  rw [blocksSpec_length] at hi
  rw [blocksSpec_getD _ hi]
  rfl

theorem pipeline_klevel_mono (g : Graph) (c : List Nat) {i j : Nat} (hij : i ≤ j)
    (hj : j < (component_lists_to_blocks (build_vertex_sets_c g c)).length) :
    ((component_lists_to_blocks (build_vertex_sets_c g c)).getD i default).klevel ≤
      ((component_lists_to_blocks (build_vertex_sets_c g c)).getD j default).klevel := by
  rw [blocksOf_eq] at hj ⊢
  rw [blocksSpec_length] at hj
  have hi : i < (flatP g c).length := lt_of_le_of_lt hij hj
  rw [blocksSpec_getD _ hi, blocksSpec_getD _ hj]
  exact flatP_fst_le g c hij hj

theorem pipeline_klevel_mem (g : Graph) (c : List Nat) {b : Block}
    (hb : b ∈ component_lists_to_blocks (build_vertex_sets_c g c)) :
    b.klevel ∈ dedupSorted c := by
  obtain ⟨i, hi, rfl⟩ := (mem_blocksOf g c).1 hb
  exact (flatP_get_mem g c hi).1

/-! Concrete instances used in the scenario claims and in witnesses. -/

/-- The spec's concrete scenario: a triangle on {0,1,2} with pendant path 2-3-4. -/
def g1ex : Graph := ⟨5, [(0,1), (0,2), (1,2), (2,3), (3,4)]⟩

/-- Two vertex-disjoint triangles. -/
def g2ex : Graph := ⟨6, [(0,1), (0,2), (1,2), (3,4), (3,5), (4,5)]⟩

/-- Two isolated vertices (coreness 0, disconnected). -/
def g3ex : Graph := ⟨2, []⟩

/-- The empty graph. -/
def g0ex : Graph := ⟨0, []⟩

/-- A components dictionary whose level-2 component [0,1] has member vertices
with two distinct most-recent ancestors (blocks 0 and 1). -/
def cd4ex : List (Nat × List (List Nat)) := [(1, [[0], [1]]), (2, [[0, 1]])]

/-- C3: on the scenario graph, `kcore_tree` produces exactly block 0
(parent None, vertices {0,1,2,3,4}, level 1) and block 1 (parent 0,
vertices {0,1,2}, level 2), and the forest is the single edge 0 → 1. -/
theorem claim3_scenario :
    kcore_tree g1ex =
      ([⟨0, none, [0, 1, 2, 3, 4], 1, 1⟩, ⟨1, some 0, [0, 1, 2], 2, 2⟩],
       ⟨2, [(0, 1)]⟩) := by decide

/-- C8: the empty graph yields an empty block list and an empty hierarchy,
with no error. -/
theorem claim8_empty : kcore_tree g0ex = ([], ⟨0, []⟩) := by decide

/-- C1: nesting invariant — every block of `kcore_tree` with a non-None parent
has a parent block whose vertex set contains its own and whose level is
strictly smaller. -/
theorem claim1_nesting (g : Graph) (b : Block) (hb : b ∈ (kcore_tree g).1) (p : Nat)
    (hp : b.parent = some p) :
    ∃ P ∈ (kcore_tree g).1, P.idx = p ∧ (∀ v ∈ b.vertices, v ∈ P.vertices) ∧
      P.klevel < b.klevel :=
  pipeline_nesting g (corenessIG g) hb hp

/-- Witness for C1 at the scenario graph and its level-2 block. -/
theorem claim1_nesting_witness :
    ∃ P ∈ (kcore_tree g1ex).1, P.idx = 0 ∧
      (∀ v ∈ (⟨1, some 0, [0, 1, 2], 2, 2⟩ : Block).vertices, v ∈ P.vertices) ∧
      P.klevel < (⟨1, some 0, [0, 1, 2], 2, 2⟩ : Block).klevel :=
  claim1_nesting g1ex ⟨1, some 0, [0, 1, 2], 2, 2⟩ (by decide) 0 (by decide)

/-- C2: at every present level k, blocks at level k are pairwise disjoint and
cover exactly the vertices of coreness at least k; the root blocks cover the
whole vertex set. -/
theorem claim2_level_partition (g : Graph) (k : Nat)
    (hk : k ∈ dedupSorted (corenessIG g)) :
    (∀ b1 ∈ (kcore_tree g).1, ∀ b2 ∈ (kcore_tree g).1,
        b1.klevel = k → b2.klevel = k → b1.idx ≠ b2.idx →
        ∀ v, v ∈ b1.vertices → v ∈ b2.vertices → False) ∧
    (∀ v, (∃ b ∈ (kcore_tree g).1, b.klevel = k ∧ v ∈ b.vertices) ↔
        (v < g.n ∧ k ≤ (corenessIG g).getD v 0)) ∧
    (∀ v, (∃ b ∈ (kcore_tree g).1, b.parent = none ∧ v ∈ b.vertices) ↔ v < g.n) := by
  have hlen : (corenessIG g).length = g.n := by
    rw [corenessIG, List.length_map, List.length_range]
  obtain ⟨k0, rest, hlev⟩ : ∃ k0 rest, dedupSorted (corenessIG g) = k0 :: rest := by
    cases hd : dedupSorted (corenessIG g) with
    | nil => rw [hd] at hk; cases hk
    | cons a t => exact ⟨a, t, rfl⟩
  refine ⟨?_, ?_, ?_⟩
  · intro b1 h1 b2 h2 hk1 hk2 hne v hv1 hv2
    exact pipeline_disjoint g (corenessIG g) h1 h2 (by rw [hk1, hk2]) hne hv1 hv2
  · intro v
    have h := pipeline_union g (corenessIG g) k hk v
    rw [mem_filter_vertices, hlen] at h
    exact h
  · intro v
    have h := pipeline_roots_union g (corenessIG g) hlev v
    rw [hlen] at h
    exact h

/-- Witness for C2 at the scenario graph and level 2. -/
theorem claim2_level_partition_witness :
    (∃ b ∈ (kcore_tree g1ex).1, b.klevel = 2 ∧ 0 ∈ b.vertices) ↔
      (0 < g1ex.n ∧ 2 ≤ (corenessIG g1ex).getD 0 0) :=
  (claim2_level_partition g1ex 2 (by decide)).2.1 0

/-- C4 counterexample: on `cd4ex` the level-2 component's members 0 and 1 have
distinct most-recent ancestors (block 0 and block 1 respectively), yet
`component_lists_to_blocks` returns normally — no failure of any kind —
silently assigning the first vertex's ancestor 0 as the parent. -/
theorem claim4_counterexample :
    (histOf (flatten_cd cd4ex) 2 0).getLast? = some 0 ∧
    (histOf (flatten_cd cd4ex) 2 1).getLast? = some 1 ∧
    component_lists_to_blocks cd4ex =
      [⟨0, none, [0], 1, 1⟩, ⟨1, none, [1], 1, 1⟩, ⟨2, some 0, [0, 1], 2, 2⟩] := by
  decide

/-- C4 amended: block assembly performs no agreement check and raises no
error; unconditionally, each block's parent is exactly the last ancestry
entry of the first member vertex with a non-empty ancestry history (`None` if
every member has an empty history), disagreement among members being ignored. -/
theorem claim4_amended (cd : List (Nat × List (List Nat)))
    (hnd : ∀ e ∈ flatten_cd cd, e.2.Nodup) (i : Nat)
    (hi : i < (flatten_cd cd).length) :
    ((component_lists_to_blocks cd).getD i default).parent
      = parentOf (flatten_cd cd) i := by
  rw [clb_eq cd hnd, blocksSpec_getD _ hi]
  rfl

/-- Witness for the amended C4 at the violating input. -/
theorem claim4_amended_witness :
    ((component_lists_to_blocks cd4ex).getD 2 default).parent
      = parentOf (flatten_cd cd4ex) 2 :=
  claim4_amended cd4ex (by decide) 2 (by decide)

/-- C5 counterexample: two isolated (mutually non-adjacent) vertices; the
minimum coreness level 0 is not split into weak components — `kcore_tree`
returns a single block containing both disconnected pieces. -/
theorem claim5_counterexample :
    g3ex.adjB 0 1 = false ∧
    (kcore_tree g3ex).1 = [⟨0, none, [0, 1], 0, 0⟩] := by decide

/-- C5 amended: genuine weak components are computed at the minimum level
exactly when that level is positive; when the minimum coreness level is 0,
the whole vertex set is emitted as one collapsed block regardless of
connectivity. -/
theorem claim5_amended (g : Graph) (kmin : Nat) (rest : List Nat)
    (hlev : dedupSorted (corenessIG g) = kmin :: rest) :
    ((kcore_tree g).1.filter (fun b => b.klevel == kmin)).map Block.vertices
      = if 0 < kmin then induced_components g (filter_vertices kmin (corenessIG g))
        else [filter_vertices 0 (corenessIG g)] := by
  have h := blocksOf_filter_level g (corenessIG g) kmin
  rw [if_pos (by rw [hlev]; exact List.mem_cons_self kmin rest)] at h
  rw [compsEntry] at h
  by_cases hk : 0 < kmin
  · rw [if_pos hk] at h
    rw [if_pos hk]
    exact h
  · rw [if_neg hk] at h
    rw [if_neg hk]
    have h0 : kmin = 0 := by omega
    rw [← h0]
    exact h

/-- Witness for the amended C5 at the two-isolated-vertices graph. -/
theorem claim5_amended_witness :
    ((kcore_tree g3ex).1.filter (fun b => b.klevel == 0)).map Block.vertices
      = if 0 < 0 then induced_components g3ex (filter_vertices 0 (corenessIG g3ex))
        else [filter_vertices 0 (corenessIG g3ex)] :=
  claim5_amended g3ex 0 [] (by decide)

/-- C6 counterexample: for two disjoint triangles the only level present is 2,
so both blocks are roots and the forest has no edges at all — no block has a
level-2 child. -/
theorem claim6_counterexample :
    (kcore_tree g2ex).1.length = 2 ∧
    (kcore_tree g2ex).1.map Block.parent = [none, none] ∧
    (kcore_tree g2ex).2.hedges = [] := by decide

/-- C6 amended: two disjoint triangles have coreness 2 everywhere, so level 2
is the minimum (and only) level: `kcore_tree` produces exactly two root blocks
at level 2, one per triangle, each childless — a forest of two one-node
trees. -/
theorem claim6_amended :
    kcore_tree g2ex =
      ([⟨0, none, [0, 1, 2], 2, 2⟩, ⟨1, none, [3, 4, 5], 2, 2⟩], ⟨2, []⟩) := by decide

/-- C7: block ids equal list positions; levels along the block list are
non-decreasing; every block's level is a present coreness value; and for each
level k the blocks at level k are, in order, exactly that level's component
list (so each distinct present level is processed exactly once, absent levels
never). -/
theorem claim7_block_ids (g : Graph) :
    (∀ i, i < (kcore_tree g).1.length → ((kcore_tree g).1.getD i default).idx = i) ∧
    (∀ i j, i ≤ j → j < (kcore_tree g).1.length →
      ((kcore_tree g).1.getD i default).klevel ≤
        ((kcore_tree g).1.getD j default).klevel) ∧
    (∀ b ∈ (kcore_tree g).1, b.klevel ∈ dedupSorted (corenessIG g)) ∧
    (∀ k, ((kcore_tree g).1.filter (fun b => b.klevel == k)).map Block.vertices
      = if k ∈ dedupSorted (corenessIG g) then compsEntry g (corenessIG g) k
        else []) :=
  ⟨fun i hi => pipeline_idx g (corenessIG g) i hi,
   fun _ _ hij hj => pipeline_klevel_mono g (corenessIG g) hij hj,
   fun _ hb => pipeline_klevel_mem g (corenessIG g) hb,
   fun k => blocksOf_filter_level g (corenessIG g) k⟩

/-- Witness for C7 at the scenario graph. -/
theorem claim7_block_ids_witness :
    ((kcore_tree g1ex).1.getD 1 default).idx = 1 ∧
    ((kcore_tree g1ex).1.getD 0 default).klevel ≤
      ((kcore_tree g1ex).1.getD 1 default).klevel :=
  ⟨(claim7_block_ids g1ex).1 1 (by decide),
   (claim7_block_ids g1ex).2.1 0 1 (by decide) (by decide)⟩

/-- C9: the hierarchy graph has exactly one node per block, its edge set is
exactly the parent → child pairs read off the blocks' parent pointers, and it
has exactly one edge per non-root block. -/
theorem claim9_hierarchy (blocks : List Block) :
    (blocks_to_hierarchy blocks).nverts = blocks.length ∧
    (∀ p i : Nat, (p, i) ∈ (blocks_to_hierarchy blocks).hedges ↔
      ∃ b ∈ blocks, b.parent = some p ∧ b.idx = i) ∧
    (blocks_to_hierarchy blocks).hedges.length
      = (blocks.filter (fun b => b.parent.isSome)).length := by
  refine ⟨rfl, ?_, ?_⟩
  · intro p i
    show (p, i) ∈ blocks.filterMap (fun b => b.parent.map (fun q => (q, b.idx))) ↔ _
    rw [List.mem_filterMap]
    constructor
    · intro ⟨b, hb, he⟩
      cases hpar : b.parent with
      | none =>
        rw [hpar] at he
        cases he
      | some q =>
        rw [hpar] at he
        have h2 : (q, b.idx) = (p, i) := by simpa using he
        have hq : q = p := congrArg Prod.fst h2
        have hidx : b.idx = i := congrArg Prod.snd h2
        exact ⟨b, hb, by rw [hpar, hq], hidx⟩
    · intro ⟨b, hb, hpar, hidx⟩
      refine ⟨b, hb, ?_⟩
      rw [hpar, hidx]
      rfl
  · show (blocks.filterMap (fun b => b.parent.map (fun q => (q, b.idx)))).length = _
    induction blocks with
    | nil => rfl
    | cons b t ih =>
      rw [List.filterMap_cons, List.filter_cons]
      cases hpar : b.parent with
      | none => simpa [hpar] using ih
      | some q => simpa [hpar] using ih

/-- C10: a block of `kcore_tree` is a root (parent None) exactly when its
level is the minimum coreness value present in the graph. -/
theorem claim10_roots (g : Graph) (hg : 0 < g.n) (b : Block)
    (hb : b ∈ (kcore_tree g).1) :
    b.parent = none ↔ b.klevel = (dedupSorted (corenessIG g)).headD 0 := by
  have hlen : (corenessIG g).length = g.n := by
    rw [corenessIG, List.length_map, List.length_range]
  have hcne : corenessIG g ≠ [] := by
    intro h
    rw [h] at hlen
    simp at hlen
    omega
  obtain ⟨x, hx⟩ := List.exists_mem_of_ne_nil _ hcne
  have hxd : x ∈ dedupSorted (corenessIG g) := (mem_dedupSorted _ x).2 hx
  obtain ⟨k0, rest, hlev⟩ : ∃ k0 rest, dedupSorted (corenessIG g) = k0 :: rest := by
    cases hd : dedupSorted (corenessIG g) with
    | nil =>
      rw [hd] at hxd
      cases hxd
    | cons a t => exact ⟨a, t, rfl⟩
  rw [hlev, List.headD_cons]
  exact pipeline_parent_none_iff g (corenessIG g) hb hlev

/-- Witness for C10 at the scenario graph and its root block. -/
theorem claim10_roots_witness :
    (⟨0, none, [0, 1, 2, 3, 4], 1, 1⟩ : Block).parent = none ↔
      (⟨0, none, [0, 1, 2, 3, 4], 1, 1⟩ : Block).klevel
        = (dedupSorted (corenessIG g1ex)).headD 0 :=
  claim10_roots g1ex (by decide) ⟨0, none, [0, 1, 2, 3, 4], 1, 1⟩ (by decide)
